import Mathlib

/-!
A shallow embedding of the energy-binning Monte Carlo engine of
`src/src/mc/energy.rs` (the SAD / SAMC weight-update engine), together with
proofs of the behavioural claims about it.

Modelling conventions:
* `Energy` and `Unitless` (both wrappers around `f64` in the source) are
  modelled as exact rationals `ℚ`; the transcendental `f64` functions
  `exp` and `ln` are threaded through as abstract parameters
  `fexp flog : ℚ → ℚ`, so every statement holds for the actual rounded
  floating-point functions as well.
* The random number generator is an infinite tape of uniform draws plus the
  position of the next draw; `gen` reads the tape and advances the position.
* Rust `Vec` indexing reads are modelled with `List.getD _ _ 0` and writes
  with `List.set` (in every reachable state the indices used by the engine
  are in bounds, where the two agree with Rust's panicking accesses).
* Rust's saturating float-to-`usize` cast in `energy_to_index` is modelled
  exactly: `Int.toNat ∘ Int.floor` (negative values clamp to zero, which is
  what the cast does; it does not panic).
-/

set_option linter.unusedVariables false

namespace SadMc

/-- Model of the engine's random number stream: an infinite tape of uniform
draws together with the position of the next draw. -/
structure Rng where
  vals : ℕ → ℚ
  pos : ℕ

/-- Draw one uniform value from the stream (Rust `self.rng.gen::<f64>()`). -/
def Rng.gen (r : Rng) : ℚ × Rng :=
  (r.vals r.pos, { r with pos := r.pos + 1 })

/-- The method state (Rust `enum Method`), holding per-scheme parameters and
exploration bookkeeping. -/
inductive Method where
  | Sad (min_T too_lo too_hi min_important_energy : ℚ) (tL n_found : ℕ)
  | Samc (t0 : ℕ)
deriving DecidableEq

/-- The configuration parameters (Rust `enum MethodParams`). -/
inductive MethodParams where
  | Sad (min_T : ℚ)
  | Samc (t0 : ℕ)

/-- Constructor of the method state from parameters and the system's initial
energy (Rust `Method::new`). -/
def Method.new : MethodParams → ℚ → Method
  | .Sad min_T, E => .Sad min_T E E E 0 1
  | .Samc t0, _ => .Samc t0

/-- The engine state (Rust `struct EnergyMC`, minus the external
collaborators: save path and plugins carry no engine-visible state). -/
structure EnergyMC where
  method : Method
  moves : ℕ
  time_L : ℕ
  rejected_moves : ℕ
  histogram : List ℕ
  lnw : List ℚ
  min_energy_bin : ℚ
  energy_bin : ℚ
  max_entropy_energy : ℚ
  max_S : ℚ
  rng : Rng

/-- Find the index corresponding to a given energy (Rust
`EnergyMC::energy_to_index`).  The source computes
`*((e - self.min_energy_bin)/self.energy_bin).value() as usize`; the `as`
cast truncates toward zero and saturates at `0` for negative inputs, which
for this expression is `Int.toNat ∘ Int.floor`.  It never panics. -/
def EnergyMC.energy_to_index (s : EnergyMC) (e : ℚ) : ℕ :=
  ((e - s.min_energy_bin) / s.energy_bin).floor.toNat

/-- Find the energy corresponding to a given index (Rust
`EnergyMC::index_to_energy`). -/
def EnergyMC.index_to_energy (s : EnergyMC) (i : ℕ) : ℚ :=
  s.min_energy_bin + (i : ℚ) * s.energy_bin

/-- The first loop of `prepare_for_energy`: while `e < min_energy_bin`,
prepend one zero-valued histogram entry and one zero-valued lnw entry and
decrement `min_energy_bin` by `energy_bin`.  The positivity of the bin
width (asserted by the source before the loops run) is carried as an
argument because it is what makes the loop terminate. -/
def grow_below (bin : ℚ) (hbin : 0 < bin) (e : ℚ) (meb : ℚ)
    (hist : List ℕ) (lnw : List ℚ) : ℚ × List ℕ × List ℚ :=
  if e < meb then
    grow_below bin hbin e (meb - bin) (0 :: hist) (0 :: lnw)
  else
    (meb, hist, lnw)
termination_by (⌈(meb - e) / bin⌉).toNat
decreasing_by
  rename_i h
  have hq : (meb - bin - e) / bin = (meb - e) / bin - 1 := by
    field_simp
    ring
  have hpos : (0 : ℚ) < (meb - e) / bin := div_pos (by linarith) hbin
  have hone : 1 ≤ ⌈(meb - e) / bin⌉ := by
    have := Int.ceil_pos.mpr hpos
    omega
  rw [hq, Int.ceil_sub_one]
  omega

/-- The second loop of `prepare_for_energy`: while
`e >= min_energy_bin + energy_bin * len`, append one zero-valued lnw entry
and one zero-valued histogram entry. -/
def grow_above (bin : ℚ) (hbin : 0 < bin) (e : ℚ) (meb : ℚ)
    (hist : List ℕ) (lnw : List ℚ) : List ℕ × List ℚ :=
  if e ≥ meb + bin * (lnw.length : ℚ) then
    grow_above bin hbin e meb (hist ++ [0]) (lnw ++ [0])
  else
    (hist, lnw)
termination_by (⌊(e - meb) / bin⌋ + 1 - (lnw.length : ℤ)).toNat
decreasing_by
  rename_i h
  have hle : (lnw.length : ℚ) ≤ (e - meb) / bin := by
    rw [le_div_iff₀ hbin]
    linarith [h]
  have hfl : (lnw.length : ℤ) ≤ ⌊(e - meb) / bin⌋ := Int.le_floor.mpr (by
    push_cast
    exact hle)
  simp only [List.length_append, List.length_cons, List.length_nil]
  push_cast
  omega

/-- Make room in the arrays for a new energy value (Rust
`EnergyMC::prepare_for_energy`).  The leading `assert!(energy_bin > 0)` is
modelled as returning `none` (a panic) when the assertion fails. -/
def EnergyMC.prepare_for_energy (s : EnergyMC) (e : ℚ) : Option EnergyMC :=
  if hbin : 0 < s.energy_bin then
    let r1 := grow_below s.energy_bin hbin e s.min_energy_bin s.histogram s.lnw
    let r2 := grow_above s.energy_bin hbin e r1.1 r1.2.1 r1.2.2
    some { s with
      histogram := r2.1
      lnw := r2.2
      min_energy_bin := r1.1 }
  else
    none

/-- Decide whether to reject the move based on the method in use (Rust
`EnergyMC::reject_move`).  Returns the reject flag together with the updated
state (the RNG advances when a draw happens; under Sad the first-visit
bookkeeping may update `tL` and `n_found`).  Rust's `&&` is lazy, so the
uniform draw happens only when `lnw2 > lnw1`. -/
def EnergyMC.reject_move (fexp : ℚ → ℚ) (s : EnergyMC) (e1 e2 : ℚ) :
    Bool × EnergyMC :=
  let i1 := s.energy_to_index e1
  let i2 := s.energy_to_index e2
  match s.method with
  | .Sad min_T too_lo too_hi min_important_energy tL n_found =>
    let lnw1 :=
      if e1 < too_lo then s.lnw.getD (s.energy_to_index too_lo) 0
      else if e1 > too_hi then s.lnw.getD (s.energy_to_index too_hi) 0
      else s.lnw.getD i1 0
    let lnw2 :=
      if e2 < too_lo then s.lnw.getD (s.energy_to_index too_lo) 0
      else if e2 > too_hi then s.lnw.getD (s.energy_to_index too_hi) 0
      else s.lnw.getD i2 0
    let rr : Bool × Rng :=
      if lnw2 > lnw1 then
        let g := s.rng.gen
        (decide (g.1 > fexp (lnw1 - lnw2)), g.2)
      else
        (false, s.rng)
    let s1 := { s with rng := rr.2 }
    if rr.1 = false ∧ s.histogram.getD i2 0 = 0 then
      (rr.1, { s1 with
        method := .Sad min_T too_lo too_hi min_important_energy s.moves
          (n_found + 1) })
    else
      (rr.1, s1)
  | .Samc t0 =>
    let lnw1 := s.lnw.getD i1 0
    let lnw2 := s.lnw.getD i2 0
    if lnw2 > lnw1 then
      let g := s.rng.gen
      (decide (g.1 > fexp (lnw1 - lnw2)), { s with rng := g.2 })
    else
      (false, s)

/-- Update the lnw based on the method in use (Rust
`EnergyMC::update_weights`).  In the source the two boundary-growth checks
mutate single fields of the already-matched `Method::Sad` variant through
`ref mut` re-matches; here the same sequential writes are expressed by
rebuilding the variant with the written fields replaced. -/
def EnergyMC.update_weights (fexp flog : ℚ → ℚ) (s : EnergyMC) (energy : ℚ) :
    EnergyMC :=
  let i := s.energy_to_index energy
  match s.method with
  | .Sad min_T too_lo too_hi min_important_energy tL n_found =>
    let lnw1 : List ℚ :=
      if too_lo < too_hi then
        let t : ℚ := (s.moves : ℚ)
        let tLq : ℚ := (tL : ℚ)
        let dE := too_hi - too_lo
        let n : ℚ := (n_found : ℚ)
        let gamma := dE / (3 * min_T * t) * (n * n + t * (t / tLq - 1) + n * t)
          / (n * n + t * (t / tLq - 1) + t)
        if energy < too_lo ∨ energy > too_hi then
          let lnw := s.lnw.getD i 0
          let lnw0 :=
            if energy > too_hi then s.lnw.getD (s.energy_to_index too_hi) 0
            else s.lnw.getD (s.energy_to_index too_lo) 0
          if lnw0 > lnw then
            s.lnw.set i (lnw0 + flog ((fexp gamma - 1) + fexp (lnw - lnw0)))
          else
            s.lnw.set i (lnw + flog (1 + (fexp gamma - 1) * fexp (lnw0 - lnw)))
        else
          s.lnw.set i (s.lnw.getD i 0 + gamma)
      else
        s.lnw
    let too_hi2 :=
      if lnw1.getD i 0 > s.max_S ∧ energy > too_hi then energy else too_hi
    let boltz := lnw1.getD (s.energy_to_index min_important_energy) 0
      + min_important_energy / min_T
    let grow_lo := lnw1.getD i 0 + energy / min_T > boltz
    let min_important2 := if grow_lo then energy else min_important_energy
    let too_lo2 := if grow_lo ∧ energy < too_lo then energy else too_lo
    { s with
      lnw := lnw1
      method := .Sad min_T too_lo2 too_hi2 min_important2 tL n_found }
  | .Samc t0 =>
    let t := s.moves
    let inc : ℚ := if t > t0 then (t0 : ℚ) / (t : ℚ) else 1
    { s with lnw := s.lnw.set i (s.lnw.getD i 0 + inc) }

/-- The tail of `move_once` that runs on every trial, declined or not
(Rust `EnergyMC::move_once`, lines after the accept/reject branch): read the
current post-step energy, increment its histogram bin, update the weights
with the pre-move energy `e1`, and track the entropy maximum. -/
def EnergyMC.finish_move (fexp flog : ℚ → ℚ) (s : EnergyMC)
    (e_now e1 : ℚ) : EnergyMC :=
  let i := s.energy_to_index e_now
  let s1 := { s with histogram := s.histogram.set i (s.histogram.getD i 0 + 1) }
  let s2 := s1.update_weights fexp flog e1
  if s2.lnw.getD i 0 > s2.max_S then
    { s2 with max_S := s2.lnw.getD i 0, max_entropy_energy := e_now }
  else
    s2

/-- The external simulated physical system (spec section 6): energy readout,
a fallible move attempt that may consume random draws, and undo. -/
structure System (σ : Type) where
  energy : σ → ℚ
  moveOnce : σ → Rng → ℚ → Option σ × Rng
  undo : σ → σ

/-- One trial step (Rust `EnergyMC::move_once`).  Returns `none` when
`prepare_for_energy` panics (its assertion fails); the report plugins are
external read-only hooks and do not touch the modelled state. -/
def EnergyMC.move_once {σ : Type} (fexp flog : ℚ → ℚ) (sys : System σ)
    (s : EnergyMC) (st : σ) : Option (EnergyMC × σ) :=
  let s0 := { s with moves := s.moves + 1 }
  let e1 := sys.energy st
  match sys.moveOnce st s0.rng (1 / 10) with
  | (some st2, rng1) =>
    let sa := { s0 with rng := rng1 }
    let e2 := sys.energy st2
    match sa.prepare_for_energy e2 with
    | none => none
    | some sb =>
      let rm := sb.reject_move fexp e1 e2
      let sc :=
        if rm.1 then
          { rm.2 with rejected_moves := rm.2.rejected_moves + 1 }
        else
          rm.2
      let st3 := if rm.1 then sys.undo st2 else st2
      some (sc.finish_move fexp flog (sys.energy st3) e1, st3)
  | (none, rng1) =>
    let sa := { s0 with
      rng := rng1
      rejected_moves := s0.rejected_moves + 1 }
    some (sa.finish_move fexp flog (sys.energy st) e1, st)

/-- Construction of the engine (Rust `EnergyMC::from_params` of the
`MonteCarlo` impl).  `E` is the system's initial energy, `delta` its
suggested bin width (`delta_energy()`), and `rng` the seeded random
stream (seeding itself is an external collaborator). -/
def from_params (p : MethodParams) (E : ℚ) (delta : Option ℚ) (rng : Rng) :
    EnergyMC :=
  { method := Method.new p E
    moves := 0
    time_L := 0
    rejected_moves := 0
    histogram := [1]
    lnw := [0]
    min_energy_bin := E
    energy_bin := delta.getD 1
    max_entropy_energy := E
    max_S := 0
    rng := rng }

/-- The effective log-weight used by the acceptance test (spec section 4.3):
under Sad the lookup clamps to the characterized window's edges, under Samc
it is the plain bin lookup. -/
def EnergyMC.effective_lnw (s : EnergyMC) (e : ℚ) : ℚ :=
  match s.method with
  | .Sad _ too_lo too_hi _ _ _ =>
    if e < too_lo then s.lnw.getD (s.energy_to_index too_lo) 0
    else if e > too_hi then s.lnw.getD (s.energy_to_index too_hi) 0
    else s.lnw.getD (s.energy_to_index e) 0
  | .Samc _ => s.lnw.getD (s.energy_to_index e) 0

/-- States reachable from construction by any sequence of
`prepare_for_energy` and `move_once` operations. -/
inductive Reach (fexp flog : ℚ → ℚ) {σ : Type} (sys : System σ) :
    EnergyMC → Prop where
  | init (p : MethodParams) (E : ℚ) (delta : Option ℚ) (rng : Rng) :
      Reach fexp flog sys (from_params p E delta rng)
  | prep (s : EnergyMC) (e : ℚ) (s' : EnergyMC) :
      Reach fexp flog sys s → s.prepare_for_energy e = some s' →
      Reach fexp flog sys s'
  | step (s : EnergyMC) (st : σ) (s' : EnergyMC) (st' : σ) :
      Reach fexp flog sys s → s.move_once fexp flog sys st = some (s', st') →
      Reach fexp flog sys s'

/-- Iterated trial steps. -/
def iter_moves {σ : Type} (fexp flog : ℚ → ℚ) (sys : System σ) :
    ℕ → EnergyMC → σ → Option (EnergyMC × σ)
  | 0, s, st => some (s, st)
  | n + 1, s, st =>
    match s.move_once fexp flog sys st with
    | none => none
    | some (s', st') => iter_moves fexp flog sys n s' st'

/-- One engine operation: either a range growth or a full trial step. -/
def StepRel (fexp flog : ℚ → ℚ) {σ : Type} (sys : System σ)
    (s s' : EnergyMC) : Prop :=
  (∃ e, s.prepare_for_energy e = some s')
  ∨ (∃ st st', s.move_once fexp flog sys st = some (s', st'))

/-- The Sad window is well formed: the lower edge is at most the upper
edge (vacuous under Samc). -/
def sad_window_le (s : EnergyMC) : Prop :=
  ∀ mT tl th mi tLv nf, s.method = .Sad mT tl th mi tLv nf → tl ≤ th

/-- The System contract that undo restores the pre-move energy
(spec section 6). -/
def undo_ok {σ : Type} (sys : System σ) : Prop :=
  ∀ st r sc st2 r', sys.moveOnce st r sc = (some st2, r') →
    sys.energy (sys.undo st2) = sys.energy st

/-- The histogram count of the bin an energy maps to. -/
def EnergyMC.count_at (s : EnergyMC) (e : ℚ) : ℕ :=
  s.histogram.getD (s.energy_to_index e) 0

/-- An energy is in range of the current table: at or above the lowest bin
and with its index inside the histogram. -/
def EnergyMC.in_range (s : EnergyMC) (e : ℚ) : Prop :=
  s.min_energy_bin ≤ e ∧ s.energy_to_index e < s.histogram.length

/-- A fixed random tape of zeros (concrete-run scaffolding). -/
def rng0 : Rng := { vals := fun _ => 0, pos := 0 }

/-- A trivial system with a single configuration at energy zero that always
performs the proposed move and consumes no draws of its own. -/
def simSys : System Unit :=
  { energy := fun _ => 0
    moveOnce := fun st r _ => (some st, r)
    undo := fun st => st }

/-- The engine constructed for the Samc scenario of spec section 8: method
Samc with t0 = 100, initial energy 0, bin width 1. -/
def samcInit : EnergyMC := from_params (.Samc 100) 0 (some 1) rng0

/-- The Samc per-step weight increment at move count t with t0 = 100. -/
def samc_inc (t : ℕ) : ℚ := if t > 100 then (100 : ℚ) / (t : ℚ) else 1

/-- Accumulated Samc weight after n moves of the scenario run. -/
def samcW (n : ℕ) : ℚ := ∑ t ∈ Finset.Icc 1 n, samc_inc t

/-- The engine state after n moves of the Samc scenario run. -/
def samcState (n : ℕ) : EnergyMC :=
  { method := .Samc 100
    moves := n
    time_L := 0
    rejected_moves := 0
    histogram := [n + 1]
    lnw := [samcW n]
    min_energy_bin := 0
    energy_bin := 1
    max_entropy_energy := 0
    max_S := samcW n
    rng := rng0 }

/-- A trivial system at energy zero that declines every proposed move and
consumes no draws. -/
def declSys : System Unit :=
  { energy := fun _ => 0
    moveOnce := fun st r _ => (none, r)
    undo := fun st => st }

/-- The state after one declined trial from samcInit under declSys. -/
def declState : EnergyMC :=
  { method := .Samc 100
    moves := 1
    time_L := 0
    rejected_moves := 1
    histogram := [2]
    lnw := [1]
    min_energy_bin := 0
    energy_bin := 1
    max_entropy_energy := 0
    max_S := 1
    rng := rng0 }

/-- A concrete Sad state with a non-degenerate window, used to exercise the
out-of-window weight update on explicit inputs. -/
def sadState : EnergyMC :=
  { method := .Sad 1 0 1 0 1 1
    moves := 2
    time_L := 0
    rejected_moves := 0
    histogram := [1, 1, 0]
    lnw := [0, 0, 0]
    min_energy_bin := 0
    energy_bin := 1
    max_entropy_energy := 0
    max_S := 0
    rng := rng0 }

/-- The Sad gamma factor exactly as the spec states it (section 4.4):
gamma = (too_hi - too_lo)/(3*min_T*t) * (n^2 + t*(t/tL - 1) + n*t)
/ (n^2 + t*(t/tL - 1) + t). -/
def spec_sad_gamma (mT tl th : ℚ) (t tLv nf : ℕ) : ℚ :=
  (th - tl) / (3 * mT * (t : ℚ))
    * ((nf : ℚ) * (nf : ℚ) + (t : ℚ) * ((t : ℚ) / (tLv : ℚ) - 1)
        + (nf : ℚ) * (t : ℚ))
    / ((nf : ℚ) * (nf : ℚ) + (t : ℚ) * ((t : ℚ) / (tLv : ℚ) - 1) + (t : ℚ))

/-- The nearer edge's log-weight, as the spec states it: edge too_hi if
e1 > too_hi, else too_lo. -/
def spec_sad_lnw0 (s : EnergyMC) (tl th e1 : ℚ) : ℚ :=
  if e1 > th then s.lnw.getD (s.energy_to_index th) 0
  else s.lnw.getD (s.energy_to_index tl) 0

/-- The out-of-window updated value exactly as the spec states it
(section 4.4), with the branch selected on lnw0 >= lnw. -/
def spec_out_of_window_value (fexp flog : ℚ → ℚ) (gamma lnw lnw0 : ℚ) : ℚ :=
  if lnw0 ≥ lnw then lnw0 + flog ((fexp gamma - 1) + fexp (lnw - lnw0))
  else lnw + flog (1 + (fexp gamma - 1) * fexp (lnw0 - lnw))

/-! Helper lemmas about list reads and writes and about Rat.floor. -/

theorem rat_floor_eq_floor (q : ℚ) : q.floor = ⌊q⌋ := by
  rw [Rat.floor_def', Rat.floor_def]

theorem getD_set_self {α : Type} (l : List α) (i : ℕ) (v d : α)
    (h : i < l.length) : (l.set i v).getD i d = v := by
  rw [List.getD_eq_getElem _ _ (by simpa using h)]
  simp [List.getElem_set_self]

theorem getD_set_ne {α : Type} (l : List α) (i j : ℕ) (v d : α)
    (h : i ≠ j) : (l.set i v).getD j d = l.getD j d := by
  by_cases hj : j < l.length
  · rw [List.getD_eq_getElem _ _ (by simpa using hj),
      List.getD_eq_getElem _ _ hj]
    exact List.getElem_set_ne h _
  · rw [List.getD_eq_default _ _ (by simp; omega),
      List.getD_eq_default _ _ (by omega)]

theorem sum_set_getD_add_one (l : List ℕ) (i : ℕ) (h : i < l.length) :
    (l.set i (l.getD i 0 + 1)).sum = l.sum + 1 := by
  induction l generalizing i with
  | nil => simp at h
  | cons a l ih =>
    cases i with
    | zero => simp [List.set, List.getD]; omega
    | succ i =>
      simp only [List.set, List.sum_cons, List.getD_cons_succ]
      rw [ih i (by simpa using h)]
      omega

theorem replicate_append_cons {α : Type} (k : ℕ) (a : α) (l : List α) :
    List.replicate k a ++ a :: l = List.replicate (k + 1) a ++ l := by
  simp [List.replicate_succ', List.append_assoc]

/-! Specifications of the two growth loops of prepare_for_energy. -/

theorem grow_below_spec (bin : ℚ) (hbin : 0 < bin) (e : ℚ) (meb : ℚ)
    (hist : List ℕ) (lnw : List ℚ) :
    ∃ k : ℕ,
      grow_below bin hbin e meb hist lnw =
        (meb - k * bin, List.replicate k 0 ++ hist, List.replicate k 0 ++ lnw)
      ∧ meb - k * bin ≤ e
      ∧ ∀ j : ℕ, j < k → e < meb - j * bin := by
  induction meb, hist, lnw using grow_below.induct bin hbin e with
  | case1 meb hist lnw hlt ih =>
    obtain ⟨k, hk, hle, hj⟩ := ih
    refine ⟨k + 1, ?_, by push_cast; linarith, ?_⟩
    · rw [grow_below, if_pos hlt, hk, replicate_append_cons,
        replicate_append_cons]
      have : meb - bin - (k : ℚ) * bin = meb - ((k : ℚ) + 1) * bin := by ring
      rw [this]
      push_cast
      rfl
    · intro j hjk
      cases j with
      | zero => simpa using hlt
      | succ j =>
        have := hj j (by omega)
        push_cast at this ⊢
        linarith
  | case2 meb hist lnw hlt =>
    refine ⟨0, ?_, by push_cast; linarith [not_lt.mp hlt], by omega⟩
    rw [grow_below, if_neg hlt]
    simp

theorem grow_above_spec (bin : ℚ) (hbin : 0 < bin) (e : ℚ) (meb : ℚ)
    (hist : List ℕ) (lnw : List ℚ) :
    ∃ m : ℕ,
      grow_above bin hbin e meb hist lnw =
        (hist ++ List.replicate m 0, lnw ++ List.replicate m 0)
      ∧ e < meb + bin * (((lnw.length + m : ℕ) : ℚ))
      ∧ (m ≠ 0 → meb + bin * (lnw.length : ℚ) ≤ e) := by
  induction hist, lnw using grow_above.induct bin hbin e meb with
  | case1 hist lnw hge ih =>
    obtain ⟨m, hm, hlt, _⟩ := ih
    refine ⟨m + 1, ?_, ?_, fun _ => hge⟩
    · rw [grow_above, if_pos hge, hm]
      simp [List.replicate_succ, List.append_assoc]
    · simp only [List.length_append, List.length_replicate,
        List.length_cons, List.length_nil] at hlt ⊢
      push_cast at hlt ⊢
      linarith
  | case2 hist lnw hge =>
    refine ⟨0, ?_, ?_, by simp⟩
    · rw [grow_above, if_neg hge]
      simp
    · have := lt_of_not_ge hge
      push_cast
      linarith

/-! Specification of prepare_for_energy. -/

theorem prepare_for_energy_spec {s : EnergyMC} {e : ℚ} {s' : EnergyMC}
    (h : s.prepare_for_energy e = some s') :
    0 < s.energy_bin ∧
    ∃ k m : ℕ,
      s'.histogram = List.replicate k 0 ++ s.histogram ++ List.replicate m 0
      ∧ s'.lnw = List.replicate k 0 ++ s.lnw ++ List.replicate m 0
      ∧ s'.min_energy_bin = s.min_energy_bin - k * s.energy_bin
      ∧ s'.method = s.method ∧ s'.moves = s.moves ∧ s'.time_L = s.time_L
      ∧ s'.rejected_moves = s.rejected_moves ∧ s'.energy_bin = s.energy_bin
      ∧ s'.max_entropy_energy = s.max_entropy_energy ∧ s'.max_S = s.max_S
      ∧ s'.rng = s.rng
      ∧ s'.min_energy_bin ≤ e
      ∧ e < s'.min_energy_bin + s'.energy_bin * (s'.lnw.length : ℚ)
      ∧ (∀ j : ℕ, j < k → e < s.min_energy_bin - j * s.energy_bin)
      ∧ (m ≠ 0 → s.min_energy_bin + s.energy_bin * (s.lnw.length : ℚ) ≤ e) := by
  unfold EnergyMC.prepare_for_energy at h
  split at h
  case isFalse => exact absurd h (by simp)
  case isTrue hbin =>
    refine ⟨hbin, ?_⟩
    obtain ⟨k, hgb, hle, hj⟩ :=
      grow_below_spec s.energy_bin hbin e s.min_energy_bin s.histogram s.lnw
    obtain ⟨m, hga, hlt, hm0⟩ :=
      grow_above_spec s.energy_bin hbin e (s.min_energy_bin - k * s.energy_bin)
        (List.replicate k 0 ++ s.histogram) (List.replicate k 0 ++ s.lnw)
    simp only [hgb, hga] at h
    obtain rfl : _ = s' := Option.some.inj h
    refine ⟨k, m, by simp, by simp, rfl, rfl, rfl, rfl, rfl, rfl, rfl, rfl,
      rfl, hle, ?_, hj, ?_⟩
    · simp only [List.length_append, List.length_replicate] at hlt ⊢
      push_cast at hlt ⊢
      linarith
    · intro hm
      have := hm0 hm
      simp only [List.length_append, List.length_replicate] at this
      push_cast at this
      linarith

theorem prepare_no_change {s : EnergyMC} {e : ℚ} (hbin : 0 < s.energy_bin)
    (h1 : s.min_energy_bin ≤ e)
    (h2 : e < s.min_energy_bin + s.energy_bin * (s.lnw.length : ℚ)) :
    s.prepare_for_energy e = some s := by
  have hb : ¬ e < s.min_energy_bin := not_lt.mpr h1
  have ha : ¬ e ≥ s.min_energy_bin + s.energy_bin * (s.lnw.length : ℚ) :=
    not_le.mpr h2
  unfold EnergyMC.prepare_for_energy
  rw [dif_pos hbin, grow_below, if_neg hb]
  simp only []
  rw [grow_above, if_neg ha]

theorem energy_to_index_lt {s : EnergyMC} {e : ℚ} {n : ℕ}
    (hbin : 0 < s.energy_bin) (h1 : s.min_energy_bin ≤ e)
    (h2 : e < s.min_energy_bin + s.energy_bin * (n : ℚ)) :
    s.energy_to_index e < n := by
  unfold EnergyMC.energy_to_index
  rw [rat_floor_eq_floor]
  have hx : (e - s.min_energy_bin) / s.energy_bin < (n : ℚ) := by
    rw [div_lt_iff₀ hbin]
    linarith
  have hfl : ⌊(e - s.min_energy_bin) / s.energy_bin⌋ < (n : ℤ) :=
    Int.floor_lt.mpr (by push_cast; exact hx)
  have hfl0 : 0 ≤ ⌊(e - s.min_energy_bin) / s.energy_bin⌋ :=
    Int.floor_nonneg.mpr (div_nonneg (by linarith) (le_of_lt hbin))
  omega

theorem prepare_index_shift {s s' : EnergyMC} {e : ℚ} {k : ℕ}
    (hbin : 0 < s.energy_bin)
    (hmeb : s'.min_energy_bin = s.min_energy_bin - k * s.energy_bin)
    (hbin2 : s'.energy_bin = s.energy_bin)
    (he : s.min_energy_bin ≤ e) :
    s'.energy_to_index e = s.energy_to_index e + k := by
  unfold EnergyMC.energy_to_index
  rw [rat_floor_eq_floor, rat_floor_eq_floor, hmeb, hbin2]
  have hq : (e - (s.min_energy_bin - k * s.energy_bin)) / s.energy_bin =
      (e - s.min_energy_bin) / s.energy_bin + (k : ℚ) := by
    field_simp
    ring
  rw [hq]
  have : ((k : ℚ) : ℚ) = ((k : ℤ) : ℚ) := by push_cast; rfl
  rw [this, Int.floor_add_int]
  have hfl : 0 ≤ ⌊(e - s.min_energy_bin) / s.energy_bin⌋ :=
    Int.floor_nonneg.mpr (div_nonneg (by linarith) (le_of_lt hbin))
  omega

theorem prepare_preserves_count {s s' : EnergyMC} {e0 e : ℚ}
    (h : s.prepare_for_energy e0 = some s') (he : s.in_range e) :
    s'.in_range e ∧ s'.count_at e = s.count_at e := by
  obtain ⟨hbin, k, m, hhist, hlnw, hmeb, -, -, -, -, hbin2, -, -, -, -, -, -, -⟩ :=
    prepare_for_energy_spec h
  obtain ⟨he1, he2⟩ := he
  have hidx : s'.energy_to_index e = s.energy_to_index e + k :=
    prepare_index_shift hbin hmeb hbin2 he1
  have hk : (0 : ℚ) ≤ k * s.energy_bin :=
    mul_nonneg (by positivity) (le_of_lt hbin)
  refine ⟨⟨by rw [hmeb]; linarith, ?_⟩, ?_⟩
  · rw [hidx, hhist]
    simp only [List.length_append, List.length_replicate]
    omega
  · unfold EnergyMC.count_at
    rw [hidx, hhist, List.append_assoc,
      List.getD_append_right _ _ _ _ (by simp),
      List.length_replicate]
    have : s.energy_to_index e + k - k = s.energy_to_index e := by omega
    rw [this, List.getD_append _ _ _ _ he2]

/-! Specification of reject_move. -/

theorem reject_move_spec (fexp : ℚ → ℚ) (s : EnergyMC) (e1 e2 : ℚ)
    {b : Bool} {s' : EnergyMC} (h : s.reject_move fexp e1 e2 = (b, s')) :
    s'.moves = s.moves ∧ s'.time_L = s.time_L
    ∧ s'.rejected_moves = s.rejected_moves
    ∧ s'.histogram = s.histogram ∧ s'.lnw = s.lnw
    ∧ s'.min_energy_bin = s.min_energy_bin ∧ s'.energy_bin = s.energy_bin
    ∧ s'.max_entropy_energy = s.max_entropy_energy ∧ s'.max_S = s.max_S
    ∧ s'.rng.vals = s.rng.vals
    ∧ s'.rng.pos = s.rng.pos
        + (if s.effective_lnw e2 > s.effective_lnw e1 then 1 else 0)
    ∧ (∀ mT tl th mi tLv nf, s.method = .Sad mT tl th mi tLv nf →
        ((b = false ∧ s.histogram.getD (s.energy_to_index e2) 0 = 0) →
          s'.method = .Sad mT tl th mi s.moves (nf + 1))
        ∧ (¬(b = false ∧ s.histogram.getD (s.energy_to_index e2) 0 = 0) →
          s'.method = s.method))
    ∧ (∀ t0, s.method = .Samc t0 → s'.method = s.method) := by
  cases hm : s.method with
  | Sad mT tl th mi tLv nf =>
    simp only [EnergyMC.reject_move, EnergyMC.effective_lnw, hm, Rng.gen] at h ⊢
    generalize hL1 : (if e1 < tl then s.lnw.getD (s.energy_to_index tl) 0
      else if e1 > th then s.lnw.getD (s.energy_to_index th) 0
      else s.lnw.getD (s.energy_to_index e1) 0) = L1 at h ⊢
    generalize hL2 : (if e2 < tl then s.lnw.getD (s.energy_to_index tl) 0
      else if e2 > th then s.lnw.getD (s.energy_to_index th) 0
      else s.lnw.getD (s.energy_to_index e2) 0) = L2 at h ⊢
    split at h
    case isTrue hgt =>
      rw [if_pos hgt]
      split at h
      case isTrue hnew =>
        rw [Prod.mk.injEq] at h
        obtain ⟨hb, hs⟩ := h
        subst hs
        refine ⟨rfl, rfl, rfl, rfl, rfl, rfl, rfl, rfl, rfl, rfl, rfl, ?_, ?_⟩
        · intro mT' tl' th' mi' tLv' nf' hmeq
          obtain ⟨rfl, rfl, rfl, rfl, rfl, rfl⟩ := Method.Sad.inj hmeq
          exact ⟨fun _ => rfl,
            fun hc => absurd ⟨hb.symm.trans hnew.1, hnew.2⟩ hc⟩
        · intro t0 hmeq
          exact absurd hmeq (by simp)
      case isFalse hnew =>
        rw [Prod.mk.injEq] at h
        obtain ⟨hb, hs⟩ := h
        subst hs
        refine ⟨rfl, rfl, rfl, rfl, rfl, rfl, rfl, rfl, rfl, rfl, rfl, ?_, ?_⟩
        · intro mT' tl' th' mi' tLv' nf' hmeq
          obtain ⟨rfl, rfl, rfl, rfl, rfl, rfl⟩ := Method.Sad.inj hmeq
          exact ⟨fun hc => absurd ⟨hb.trans hc.1, hc.2⟩ hnew, fun _ => rfl⟩
        · intro t0 hmeq
          exact absurd hmeq (by simp)
    case isFalse hgt =>
      rw [if_neg hgt]
      split at h
      case isTrue hnew =>
        rw [Prod.mk.injEq] at h
        obtain ⟨hb, hs⟩ := h
        subst hs
        refine ⟨rfl, rfl, rfl, rfl, rfl, rfl, rfl, rfl, rfl, rfl, by simp, ?_, ?_⟩
        · intro mT' tl' th' mi' tLv' nf' hmeq
          obtain ⟨rfl, rfl, rfl, rfl, rfl, rfl⟩ := Method.Sad.inj hmeq
          exact ⟨fun _ => rfl,
            fun hc => absurd ⟨hb.symm.trans hnew.1, hnew.2⟩ hc⟩
        · intro t0 hmeq
          exact absurd hmeq (by simp)
      case isFalse hnew =>
        rw [Prod.mk.injEq] at h
        obtain ⟨hb, hs⟩ := h
        subst hs
        refine ⟨rfl, rfl, rfl, rfl, rfl, rfl, rfl, rfl, rfl, rfl, by simp, ?_, ?_⟩
        · intro mT' tl' th' mi' tLv' nf' hmeq
          obtain ⟨rfl, rfl, rfl, rfl, rfl, rfl⟩ := Method.Sad.inj hmeq
          exact ⟨fun hc => absurd ⟨hb.trans hc.1, hc.2⟩ hnew, fun _ => rfl⟩
        · intro t0 hmeq
          exact absurd hmeq (by simp)
  | Samc t0 =>
    simp only [EnergyMC.reject_move, EnergyMC.effective_lnw, hm, Rng.gen] at h ⊢
    split at h
    case isTrue hgt =>
      rw [if_pos hgt]
      rw [Prod.mk.injEq] at h
      obtain ⟨hb, hs⟩ := h
      subst hs
      refine ⟨rfl, rfl, rfl, rfl, rfl, rfl, rfl, rfl, rfl, rfl, rfl, ?_,
        fun _ _ => rfl⟩
      intro mT' tl' th' mi' tLv' nf' hmeq
      exact absurd hmeq (by simp)
    case isFalse hgt =>
      rw [if_neg hgt]
      rw [Prod.mk.injEq] at h
      obtain ⟨hb, hs⟩ := h
      subst hs
      refine ⟨rfl, rfl, rfl, rfl, rfl, rfl, rfl, rfl, rfl, rfl, by simp, ?_,
        fun _ _ => hm⟩
      intro mT' tl' th' mi' tLv' nf' hmeq
      exact absurd hmeq (by simp)

/-! Specification of update_weights. -/

theorem ite_le_left {c : Prop} [Decidable c] {x y z : ℚ} (h1 : c → x ≤ z)
    (h2 : y ≤ z) : (if c then x else y) ≤ z := by
  split_ifs with h
  · exact h1 h
  · exact h2

theorem le_ite_right {c : Prop} [Decidable c] {x y z : ℚ} (h1 : c → z ≤ x)
    (h2 : z ≤ y) : z ≤ (if c then x else y) := by
  split_ifs with h
  · exact h1 h
  · exact h2

theorem update_weights_spec (fexp flog : ℚ → ℚ) (s : EnergyMC) (energy : ℚ) :
    (s.update_weights fexp flog energy).moves = s.moves
    ∧ (s.update_weights fexp flog energy).time_L = s.time_L
    ∧ (s.update_weights fexp flog energy).rejected_moves = s.rejected_moves
    ∧ (s.update_weights fexp flog energy).histogram = s.histogram
    ∧ (s.update_weights fexp flog energy).min_energy_bin = s.min_energy_bin
    ∧ (s.update_weights fexp flog energy).energy_bin = s.energy_bin
    ∧ (s.update_weights fexp flog energy).max_entropy_energy
        = s.max_entropy_energy
    ∧ (s.update_weights fexp flog energy).max_S = s.max_S
    ∧ (s.update_weights fexp flog energy).rng = s.rng
    ∧ (s.update_weights fexp flog energy).lnw.length = s.lnw.length
    ∧ (∀ j, j ≠ s.energy_to_index energy →
        (s.update_weights fexp flog energy).lnw.getD j 0 = s.lnw.getD j 0)
    ∧ (∀ mT tl th mi tLv nf, s.method = .Sad mT tl th mi tLv nf →
        ∃ tl' th' mi',
          (s.update_weights fexp flog energy).method = .Sad mT tl' th' mi' tLv nf
          ∧ tl' ≤ tl ∧ th ≤ th')
    ∧ (∀ t0, s.method = .Samc t0 →
        (s.update_weights fexp flog energy).method = s.method) := by
  cases hm : s.method with
  | Sad mT tl th mi tLv nf =>
    simp only [EnergyMC.update_weights, hm]
    refine ⟨trivial, trivial, trivial, trivial, trivial, trivial, trivial,
      trivial, trivial, ?_, ?_, ?_, ?_⟩
    · split_ifs <;> simp
    · intro j hj
      split_ifs <;>
        first
          | rfl
          | exact getD_set_ne _ _ _ _ _ fun he => hj he.symm
    · intro mT' tl' th' mi' tLv' nf' hmeq
      obtain ⟨rfl, rfl, rfl, rfl, rfl, rfl⟩ := Method.Sad.inj hmeq
      refine ⟨_, _, _, rfl, ?_, ?_⟩
      · exact ite_le_left (fun hc => le_of_lt hc.2) (le_refl _)
      · exact le_ite_right (fun hc => le_of_lt hc.2) (le_refl _)
    · intro t0 hmeq
      exact absurd hmeq (by simp)
  | Samc t0 =>
    simp only [EnergyMC.update_weights, hm]
    refine ⟨trivial, trivial, trivial, trivial, trivial, trivial, trivial,
      trivial, trivial, by simp, ?_, ?_, by simp⟩
    · intro j hj
      exact getD_set_ne _ _ _ _ _ fun he => hj he.symm
    · intro mT' tl' th' mi' tLv' nf' hmeq
      exact absurd hmeq (by simp)

/-! Specification of finish_move. -/

theorem energy_to_index_congr {s s' : EnergyMC}
    (h1 : s'.min_energy_bin = s.min_energy_bin)
    (h2 : s'.energy_bin = s.energy_bin) (e : ℚ) :
    s'.energy_to_index e = s.energy_to_index e := by
  unfold EnergyMC.energy_to_index
  rw [h1, h2]

theorem getD_le_set_add_one (l : List ℕ) (i j : ℕ) :
    l.getD j 0 ≤ (l.set i (l.getD i 0 + 1)).getD j 0 := by
  by_cases he : i = j
  · subst he
    by_cases hl : i < l.length
    · rw [getD_set_self _ _ _ _ hl]
      omega
    · have hl2 : ¬ i < (l.set i (l.getD i 0 + 1)).length := by
        simpa using hl
      rw [List.getD_eq_default _ _ (by omega),
        List.getD_eq_default _ _ (by simp at hl2 ⊢; omega)]
  · rw [getD_set_ne _ _ _ _ _ he]

theorem finish_move_spec (fexp flog : ℚ → ℚ) (s : EnergyMC) (e_now e1 : ℚ) :
    (s.finish_move fexp flog e_now e1).moves = s.moves
    ∧ (s.finish_move fexp flog e_now e1).time_L = s.time_L
    ∧ (s.finish_move fexp flog e_now e1).rejected_moves = s.rejected_moves
    ∧ (s.finish_move fexp flog e_now e1).min_energy_bin = s.min_energy_bin
    ∧ (s.finish_move fexp flog e_now e1).energy_bin = s.energy_bin
    ∧ (s.finish_move fexp flog e_now e1).rng = s.rng
    ∧ (s.finish_move fexp flog e_now e1).histogram
        = s.histogram.set (s.energy_to_index e_now)
            (s.histogram.getD (s.energy_to_index e_now) 0 + 1)
    ∧ (s.finish_move fexp flog e_now e1).lnw.length = s.lnw.length
    ∧ (∀ mT tl th mi tLv nf, s.method = .Sad mT tl th mi tLv nf →
        ∃ tl' th' mi',
          (s.finish_move fexp flog e_now e1).method = .Sad mT tl' th' mi' tLv nf
          ∧ tl' ≤ tl ∧ th ≤ th')
    ∧ (∀ t0, s.method = .Samc t0 →
        (s.finish_move fexp flog e_now e1).method = s.method) := by
  obtain ⟨hm1, hm2, hm3, hh, hmb, heb, hmee, hms, hrng, hlen, hgd, hsad, hsamc⟩ :=
    update_weights_spec fexp flog
      { s with histogram := (s.histogram.set (s.energy_to_index e_now)
          (s.histogram.getD (s.energy_to_index e_now) 0 + 1)) } e1
  simp only [EnergyMC.finish_move]
  split
  case isTrue hc =>
    refine ⟨hm1, hm2, hm3, hmb, heb, hrng, hh, hlen, ?_, ?_⟩
    · intro mT tl th mi tLv nf hmeq
      exact hsad mT tl th mi tLv nf hmeq
    · intro t0 hmeq
      exact hsamc t0 hmeq
  case isFalse hc =>
    refine ⟨hm1, hm2, hm3, hmb, heb, hrng, hh, hlen, ?_, ?_⟩
    · intro mT tl th mi tLv nf hmeq
      exact hsad mT tl th mi tLv nf hmeq
    · intro t0 hmeq
      exact hsamc t0 hmeq

theorem finish_move_count (fexp flog : ℚ → ℚ) (s : EnergyMC) (e_now e1 e : ℚ) :
    s.count_at e ≤ (s.finish_move fexp flog e_now e1).count_at e := by
  obtain ⟨-, -, -, hmb, heb, -, hh, -, -, -⟩ :=
    finish_move_spec fexp flog s e_now e1
  unfold EnergyMC.count_at
  rw [energy_to_index_congr hmb heb, hh]
  exact getD_le_set_add_one _ _ _

/-- Case analysis of one trial step: either the System declines (and only
the counters and the finishing sub-steps run), or the move is performed and
the prepared table runs the acceptance test, with an undo on rejection. -/
theorem move_once_cases {σ : Type} (fexp flog : ℚ → ℚ) (sys : System σ)
    {s : EnergyMC} {st : σ} {s' : EnergyMC} {st' : σ}
    (h : s.move_once fexp flog sys st = some (s', st')) :
    (∃ rng1, sys.moveOnce st s.rng (1 / 10) = (none, rng1) ∧ st' = st
      ∧ s' = EnergyMC.finish_move fexp flog
          { s with
            moves := s.moves + 1
            rng := rng1
            rejected_moves := s.rejected_moves + 1 }
          (sys.energy st) (sys.energy st))
    ∨ (∃ st2 rng1 sb,
        sys.moveOnce st s.rng (1 / 10) = (some st2, rng1)
        ∧ EnergyMC.prepare_for_energy { s with moves := s.moves + 1, rng := rng1 }
            (sys.energy st2) = some sb
        ∧ (((sb.reject_move fexp (sys.energy st) (sys.energy st2)).1 = false
             ∧ st' = st2
             ∧ s' = EnergyMC.finish_move fexp flog
                 (sb.reject_move fexp (sys.energy st) (sys.energy st2)).2
                 (sys.energy st2) (sys.energy st))
           ∨ ((sb.reject_move fexp (sys.energy st) (sys.energy st2)).1 = true
             ∧ st' = sys.undo st2
             ∧ s' = EnergyMC.finish_move fexp flog
                 { (sb.reject_move fexp (sys.energy st) (sys.energy st2)).2 with
                   rejected_moves :=
                     (sb.reject_move fexp (sys.energy st)
                       (sys.energy st2)).2.rejected_moves + 1 }
                 (sys.energy (sys.undo st2)) (sys.energy st)))) := by
  simp only [EnergyMC.move_once] at h
  rcases hmv : sys.moveOnce st s.rng (1 / 10) with ⟨ost, rng1⟩
  rw [hmv] at h
  cases ost with
  | none =>
    left
    simp only [Option.some.injEq, Prod.mk.injEq] at h
    exact ⟨rng1, rfl, h.2.symm, h.1.symm⟩
  | some st2 =>
    right
    simp only [] at h
    rcases hprep : EnergyMC.prepare_for_energy
        { s with moves := s.moves + 1, rng := rng1 } (sys.energy st2) with _ | sb
    · rw [hprep] at h
      simp at h
    · rw [hprep] at h
      simp only [Option.some.injEq, Prod.mk.injEq] at h
      refine ⟨st2, rng1, sb, rfl, hprep, ?_⟩
      cases hrm : (sb.reject_move fexp (sys.energy st) (sys.energy st2)).1 with
      | false =>
        left
        rw [hrm] at h
        simp only [Bool.false_eq_true, if_false] at h
        exact ⟨rfl, h.2.symm, h.1.symm⟩
      | true =>
        right
        rw [hrm] at h
        simp only [if_true] at h
        obtain ⟨hs, hst⟩ := h
        subst hst
        exact ⟨rfl, rfl, hs.symm⟩

theorem count_at_eq_of_fields {s s' : EnergyMC}
    (hh : s'.histogram = s.histogram)
    (h1 : s'.min_energy_bin = s.min_energy_bin)
    (h2 : s'.energy_bin = s.energy_bin) (e : ℚ) :
    s'.count_at e = s.count_at e ∧ (s.in_range e → s'.in_range e) := by
  unfold EnergyMC.count_at EnergyMC.in_range
  rw [energy_to_index_congr h1 h2, hh, h1]
  exact ⟨rfl, fun he => he⟩

theorem finish_move_in_range (fexp flog : ℚ → ℚ) (s : EnergyMC)
    (e_now e1 e : ℚ) (he : s.in_range e) :
    (s.finish_move fexp flog e_now e1).in_range e := by
  obtain ⟨-, -, -, hmb, heb, -, hh, -, -, -⟩ :=
    finish_move_spec fexp flog s e_now e1
  unfold EnergyMC.in_range
  rw [energy_to_index_congr hmb heb, hh, hmb, List.length_set]
  exact he

/-- Consolidated per-step facts of one trial step, used by all invariant
arguments: the move counter, time_L, the rejection counter, table lengths,
the Sad window, the method tag, and per-bin visit counts. -/
theorem move_once_step_facts {σ : Type} (fexp flog : ℚ → ℚ) (sys : System σ)
    {s : EnergyMC} {st : σ} {s' : EnergyMC} {st' : σ}
    (h : s.move_once fexp flog sys st = some (s', st')) :
    s'.moves = s.moves + 1
    ∧ s'.time_L = s.time_L
    ∧ (s'.rejected_moves = s.rejected_moves
       ∨ s'.rejected_moves = s.rejected_moves + 1)
    ∧ (s.histogram.length = s.lnw.length →
        s'.histogram.length = s'.lnw.length)
    ∧ (∀ mT tl th mi tLv nf, s.method = .Sad mT tl th mi tLv nf →
        ∃ tl' th' mi' tLv' nf', s'.method = .Sad mT tl' th' mi' tLv' nf'
          ∧ tl' ≤ tl ∧ th ≤ th')
    ∧ (∀ t0, s.method = .Samc t0 → s'.method = s.method)
    ∧ (∀ e, s.in_range e → s.count_at e ≤ s'.count_at e ∧ s'.in_range e) := by
  rcases move_once_cases fexp flog sys h with
    ⟨rng1, hmv, hst, hs⟩ | ⟨st2, rng1, sb, hmv, hprep, hcase⟩
  · subst hs
    obtain ⟨f1, f2, f3, f4, f5, f6, f7, f8, f9, f10⟩ :=
      finish_move_spec fexp flog
        { s with
          moves := s.moves + 1
          rng := rng1
          rejected_moves := s.rejected_moves + 1 }
        (sys.energy st) (sys.energy st)
    refine ⟨f1, f2, Or.inr f3, ?_, ?_, f10, ?_⟩
    · intro hlen
      rw [f7, f8, List.length_set]
      exact hlen
    · intro mT tl th mi tLv nf hmeq
      obtain ⟨tl', th', mi', hmm, hle1, hle2⟩ := f9 mT tl th mi tLv nf hmeq
      exact ⟨tl', th', mi', tLv, nf, hmm, hle1, hle2⟩
    · intro e he
      have hc := finish_move_count fexp flog
        { s with
          moves := s.moves + 1
          rng := rng1
          rejected_moves := s.rejected_moves + 1 }
        (sys.energy st) (sys.energy st) e
      have hi := finish_move_in_range fexp flog
        { s with
          moves := s.moves + 1
          rng := rng1
          rejected_moves := s.rejected_moves + 1 }
        (sys.energy st) (sys.energy st) e he
      exact ⟨hc, hi⟩
  · obtain ⟨hbin, k, m, phist, plnw, pmeb, pmeth, pmoves, ptime, prej, pbin,
      pmee, pmaxs, prng, ple, plt, pj, pm⟩ := prepare_for_energy_spec hprep
    obtain ⟨r1, r2, r3, r4, r5, r6, r7, r8, r9, r10, r11, r12, r13⟩ :=
      reject_move_spec fexp sb (sys.energy st) (sys.energy st2)
          Prod.mk.eta.symm
    have hsbmeth : sb.method = s.method := pmeth
    have hsbmoves : sb.moves = s.moves + 1 := pmoves
    have hsbtime : sb.time_L = s.time_L := ptime
    have hsbrej : sb.rejected_moves = s.rejected_moves := prej
    -- facts about the post-acceptance-test state
    set rj := (sb.reject_move fexp (sys.energy st) (sys.energy st2)).2 with hrj
    -- the method of rj keeps the Sad window edges of sb
    have hrjmeth : ∀ mT tl th mi tLv nf, sb.method = .Sad mT tl th mi tLv nf →
        ∃ tLv' nf', rj.method = .Sad mT tl th mi tLv' nf' := by
      intro mT tl th mi tLv nf hmeq
      obtain ⟨hr1, hr2⟩ := r12 mT tl th mi tLv nf hmeq
      by_cases hc : (sb.reject_move fexp (sys.energy st) (sys.energy st2)).1
          = false ∧ sb.histogram.getD (sb.energy_to_index (sys.energy st2)) 0 = 0
      · exact ⟨sb.moves, nf + 1, hr1 hc⟩
      · exact ⟨tLv, nf, (hr2 hc).trans hmeq⟩
    have hrjsamc : ∀ t0, sb.method = .Samc t0 → rj.method = sb.method := r13
    rcases hcase with ⟨hb, hst, hs⟩ | ⟨hb, hst, hs⟩
    all_goals subst hs
    -- accepted branch
    · obtain ⟨f1, f2, f3, f4, f5, f6, f7, f8, f9, f10⟩ :=
        finish_move_spec fexp flog rj (sys.energy st2) (sys.energy st)
      refine ⟨?_, ?_, ?_, ?_, ?_, ?_, ?_⟩
      · rw [f1, r1, hsbmoves]
      · rw [f2, r2, hsbtime]
      · left
        rw [f3, r3, hsbrej]
      · intro hlen
        rw [f7, f8, List.length_set, r4, r5]
        rw [phist, plnw]
        simp only [List.length_append, List.length_replicate]
        omega
      · intro mT tl th mi tLv nf hmeq
        obtain ⟨tLv2, nf2, hm2⟩ :=
          hrjmeth mT tl th mi tLv nf (hsbmeth.trans hmeq)
        obtain ⟨tl', th', mi', hm3, hle1, hle2⟩ :=
          f9 mT tl th mi tLv2 nf2 hm2
        exact ⟨tl', th', mi', tLv2, nf2, hm3, hle1, hle2⟩
      · intro t0 hmeq
        have hsb : sb.method = .Samc t0 := hsbmeth.trans hmeq
        have hrjm : rj.method = .Samc t0 := (hrjsamc t0 hsb).trans hsb
        rw [f10 t0 hrjm, hrjm, hmeq]
      · intro e he
        obtain ⟨hsbr, hsbc⟩ := prepare_preserves_count hprep he
        obtain ⟨hrjc, hrji⟩ := count_at_eq_of_fields r4 r6 r7 e
        refine ⟨?_, finish_move_in_range fexp flog _ _ _ e (hrji hsbr)⟩
        calc s.count_at e = sb.count_at e := hsbc.symm
          _ = rj.count_at e := hrjc.symm
          _ ≤ _ := finish_move_count fexp flog _ _ _ e
    -- rejected branch
    · obtain ⟨f1, f2, f3, f4, f5, f6, f7, f8, f9, f10⟩ :=
        finish_move_spec fexp flog
          { rj with rejected_moves := rj.rejected_moves + 1 }
          (sys.energy (sys.undo st2)) (sys.energy st)
      refine ⟨?_, ?_, ?_, ?_, ?_, ?_, ?_⟩
      · rw [f1]
        show rj.moves = s.moves + 1
        rw [r1, hsbmoves]
      · rw [f2]
        show rj.time_L = s.time_L
        rw [r2, hsbtime]
      · right
        rw [f3]
        show rj.rejected_moves + 1 = s.rejected_moves + 1
        rw [r3, hsbrej]
      · intro hlen
        rw [f7, f8, List.length_set]
        show (rj.histogram).length = (rj.lnw).length
        rw [r4, r5, phist, plnw]
        simp only [List.length_append, List.length_replicate]
        omega
      · intro mT tl th mi tLv nf hmeq
        obtain ⟨tLv2, nf2, hm2⟩ :=
          hrjmeth mT tl th mi tLv nf (hsbmeth.trans hmeq)
        obtain ⟨tl', th', mi', hm3, hle1, hle2⟩ :=
          f9 mT tl th mi tLv2 nf2 hm2
        exact ⟨tl', th', mi', tLv2, nf2, hm3, hle1, hle2⟩
      · intro t0 hmeq
        have hsb : sb.method = .Samc t0 := hsbmeth.trans hmeq
        have hrjm : rj.method = .Samc t0 := (hrjsamc t0 hsb).trans hsb
        rw [f10 t0 hrjm]
        show rj.method = s.method
        rw [hrjm, hmeq]
      · intro e he
        obtain ⟨hsbr, hsbc⟩ := prepare_preserves_count hprep he
        obtain ⟨hrjc, hrji⟩ := count_at_eq_of_fields r4 r6 r7 e
        have hrji2 : EnergyMC.in_range
            { rj with rejected_moves := rj.rejected_moves + 1 } e := hrji hsbr
        refine ⟨?_, finish_move_in_range fexp flog _ _ _ e hrji2⟩
        calc s.count_at e = sb.count_at e := hsbc.symm
          _ = EnergyMC.count_at
              { rj with rejected_moves := rj.rejected_moves + 1 } e := hrjc.symm
          _ ≤ _ := finish_move_count fexp flog _ _ _ e

/-- The invariants that hold in every reachable state: time_L is never
written, the histogram and lnw tables stay the same length, rejections never
exceed moves, and the Sad window is well formed. -/
theorem reach_invariants {σ : Type} (fexp flog : ℚ → ℚ) (sys : System σ)
    {s : EnergyMC} (h : Reach fexp flog sys s) :
    s.time_L = 0
    ∧ s.histogram.length = s.lnw.length
    ∧ s.rejected_moves ≤ s.moves
    ∧ sad_window_le s := by
  induction h with
  | init p E delta rng =>
    refine ⟨rfl, rfl, le_refl _, ?_⟩
    intro mT tl th mi tLv nf hmeq
    cases p with
    | Sad minT =>
      obtain ⟨-, h2, h3, -⟩ := Method.Sad.inj hmeq
      rw [← h2, ← h3]
    | Samc t0 => exact absurd hmeq (by simp [from_params, Method.new])
  | prep s e s' hr hp ih =>
    obtain ⟨ht, hlen, hrm, hwin⟩ := ih
    obtain ⟨hbin, k, m, phist, plnw, pmeb, pmeth, pmoves, ptime, prej, pbin,
      pmee, pmaxs, prng, -, -, -, -⟩ := prepare_for_energy_spec hp
    refine ⟨ptime.trans ht, ?_, ?_, ?_⟩
    · rw [phist, plnw]
      simp only [List.length_append, List.length_replicate]
      omega
    · rw [prej, pmoves]
      exact hrm
    · intro mT tl th mi tLv nf hmeq
      exact hwin mT tl th mi tLv nf ((pmeth.symm).trans hmeq)
  | step s st s' st' hr hmv ih =>
    obtain ⟨ht, hlen, hrm, hwin⟩ := ih
    obtain ⟨m1, m2, m3, m4, m5, m6, m7⟩ := move_once_step_facts fexp flog sys hmv
    refine ⟨m2.trans ht, m4 hlen, ?_, ?_⟩
    · rcases m3 with h3 | h3 <;> omega
    · intro mT tl th mi tLv nf hmeq
      cases hsm : s.method with
      | Sad mT0 tl0 th0 mi0 tLv0 nf0 =>
        obtain ⟨tl', th', mi', tLv', nf', hmm, hle1, hle2⟩ :=
          m5 mT0 tl0 th0 mi0 tLv0 nf0 hsm
        obtain ⟨-, h2, h3, -⟩ := Method.Sad.inj (hmm.symm.trans hmeq)
        have h0 := hwin mT0 tl0 th0 mi0 tLv0 nf0 hsm
        rw [← h2, ← h3]
        calc tl' ≤ tl0 := hle1
          _ ≤ th0 := h0
          _ ≤ th' := hle2
      | Samc t0 =>
        have := (m6 t0 hsm).trans hsm
        rw [this] at hmeq
        exact absurd hmeq (by simp)

/-! Claim theorems. -/

/-- C2: the claim says energy_to_index aborts (panics) for an energy below
min_energy_bin.  The code does not: the `as usize` cast saturates, so every
below-range energy is silently clamped to the valid index 0.  This theorem
documents the actual (buggy, per the function's own doc comment) behaviour
at every below-range input. -/
theorem c2_energy_to_index_clamps (s : EnergyMC) (e : ℚ)
    (hbin : 0 < s.energy_bin) (he : e < s.min_energy_bin) :
    s.energy_to_index e = 0 := by
  unfold EnergyMC.energy_to_index
  rw [rat_floor_eq_floor]
  have hneg : (e - s.min_energy_bin) / s.energy_bin < 0 :=
    div_neg_of_neg_of_pos (by linarith) hbin
  have hfl : ⌊(e - s.min_energy_bin) / s.energy_bin⌋ < 0 :=
    Int.floor_lt.mpr (by push_cast; exact hneg)
  omega

/-- Witness for C2 at a concrete state: min_energy_bin 0, bin width 1,
energy -1 yields index 0 instead of a panic. -/
theorem c2_energy_to_index_clamps_witness :
    0 < samcInit.energy_bin ∧ (-1 : ℚ) < samcInit.min_energy_bin
    ∧ samcInit.energy_to_index (-1) = 0 :=
  ⟨by decide, by decide,
    c2_energy_to_index_clamps samcInit (-1) (by decide) (by decide)⟩

/-- C7: in every state reachable from construction by any sequence of
move_once / prepare_for_energy operations, the histogram and the lnw table
have the same length. -/
theorem c7_histogram_lnw_length {σ : Type} (fexp flog : ℚ → ℚ)
    (sys : System σ) (s : EnergyMC) (h : Reach fexp flog sys s) :
    s.histogram.length = s.lnw.length :=
  (reach_invariants fexp flog sys h).2.1

/-- Witness for C7 at the constructed state. -/
theorem c7_histogram_lnw_length_witness :
    (from_params (.Samc 100) 0 (some 1) rng0).histogram.length
      = (from_params (.Samc 100) 0 (some 1) rng0).lnw.length :=
  c7_histogram_lnw_length (fun q => q) (fun q => q) simSys _
    (Reach.init (.Samc 100) 0 (some 1) rng0)

/-- C10: the public field time_L equals 0 in every reachable state: it is 0
at construction and no operation (prepare_for_energy, move_once and the
acceptance test and weight update inside it) ever writes to it. -/
theorem c10_time_L_always_zero {σ : Type} (fexp flog : ℚ → ℚ)
    (sys : System σ) :
    (∀ p E delta rng, (from_params p E delta rng).time_L = 0)
    ∧ (∀ (s : EnergyMC) (e : ℚ) (s' : EnergyMC),
        s.prepare_for_energy e = some s' → s'.time_L = s.time_L)
    ∧ (∀ (s : EnergyMC) (st : σ) (s' : EnergyMC) (st' : σ),
        s.move_once fexp flog sys st = some (s', st') → s'.time_L = s.time_L)
    ∧ (∀ s : EnergyMC, Reach fexp flog sys s → s.time_L = 0) := by
  refine ⟨fun p E delta rng => rfl, ?_, ?_, ?_⟩
  · intro s e s' h
    obtain ⟨-, k, m, -, -, -, -, -, ht, -, -, -, -, -, -, -, -⟩ :=
      prepare_for_energy_spec h
    exact ht
  · intro s st s' st' h
    exact (move_once_step_facts fexp flog sys h).2.1
  · intro s h
    exact (reach_invariants fexp flog sys h).1

/-- Witness for C10 at a concrete construction and reachable state. -/
theorem c10_time_L_always_zero_witness :
    (from_params (.Sad 1) 0 (some 1) rng0).time_L = 0
    ∧ (from_params (.Sad 1) 0 (some 1) rng0).time_L = 0 :=
  ⟨(c10_time_L_always_zero (fun q => q) (fun q => q) simSys).1
      (.Sad 1) 0 (some 1) rng0,
   (c10_time_L_always_zero (fun q => q) (fun q => q) simSys).2.2.2 _
      (Reach.init (.Sad 1) 0 (some 1) rng0)⟩

/-- C1 counterexample: the claim says exactly one uniform value is drawn on
every acceptance-test call, including when lnw(e2) <= lnw(e1).  At the
concrete in-range call below (Samc, e1 = e2 = 0, so lnw(e2) = lnw(e1)) the
engine draws nothing: the RNG position is unchanged, not advanced by one. -/
theorem c1_counterexample :
    ¬ ((samcInit.reject_move (fun _ => (1 : ℚ)) 0 0).2.rng.pos
        = samcInit.rng.pos + 1) := by
  simp [samcInit, from_params, EnergyMC.reject_move, Method.new, rng0]

/-- C1 amended: the acceptance test draws exactly one uniform value when the
effective lnw(e2) exceeds the effective lnw(e1) and zero draws otherwise
(Rust's lazy &&), under either method; and on a System-declined step the
engine's RNG is exactly whatever the System handed back, untouched by the
acceptance test. -/
theorem c1_rng_draws (fexp : ℚ → ℚ) :
    (∀ (s : EnergyMC) (e1 e2 : ℚ),
      (s.reject_move fexp e1 e2).2.rng.pos =
        s.rng.pos + (if s.effective_lnw e2 > s.effective_lnw e1 then 1 else 0)
      ∧ (s.reject_move fexp e1 e2).2.rng.vals = s.rng.vals)
    ∧ (∀ {σ : Type} (flog : ℚ → ℚ) (sys : System σ) (s : EnergyMC) (st : σ)
        (s' : EnergyMC) (st' : σ) (rng1 : Rng),
        s.move_once fexp flog sys st = some (s', st') →
        sys.moveOnce st s.rng (1 / 10) = (none, rng1) →
        s'.rng = rng1) := by
  constructor
  · intro s e1 e2
    obtain ⟨-, -, -, -, -, -, -, -, -, hvals, hpos, -, -⟩ :=
      reject_move_spec fexp s e1 e2 Prod.mk.eta.symm
    exact ⟨hpos, hvals⟩
  · intro σ flog sys s st s' st' rng1 h hdecl
    rcases move_once_cases fexp flog sys h with
      ⟨rng1', hmv, hst, hs⟩ | ⟨st2, rng1', sb, hmv, -, -⟩
    · rw [hmv] at hdecl
      obtain ⟨-, hrng⟩ := Prod.mk.injEq .. ▸ hdecl
      subst hs
      obtain ⟨-, -, -, -, -, hr, -, -, -, -⟩ :=
        finish_move_spec fexp flog
          { s with
            moves := s.moves + 1
            rng := rng1'
            rejected_moves := s.rejected_moves + 1 }
          (sys.energy st) (sys.energy st)
      rw [hr]
      exact hrng
    · rw [hmv] at hdecl
      exact absurd (congrArg Prod.fst hdecl) (by simp)

/-- Witness for C1's amended statement at concrete inputs: the Samc call
with equal weights consumes zero draws, and a declined step leaves the RNG
exactly as the System returned it. -/
theorem c1_rng_draws_witness :
    ((samcInit.reject_move (fun _ => (1 : ℚ)) 0 0).2.rng.pos
      = samcInit.rng.pos
        + (if samcInit.effective_lnw 0 > samcInit.effective_lnw 0 then 1 else 0))
    ∧ declState.rng = rng0 :=
  ⟨((c1_rng_draws (fun _ => 1)).1 samcInit 0 0).1,
   (c1_rng_draws (fun _ => 1)).2 (fun _ => 1) declSys samcInit () declState ()
     rng0
     (by simp [EnergyMC.move_once, declSys, samcInit, from_params, Method.new,
       rng0, EnergyMC.finish_move, EnergyMC.update_weights,
       EnergyMC.energy_to_index, rat_floor_eq_floor, declState])
     rfl⟩

/-- C8: under Sad, across any run too_hi is non-decreasing and too_lo is
non-increasing per step, too_lo <= too_hi holds in every reachable state,
and at construction too_lo = too_hi = the initial energy. -/
theorem c8_sad_window_monotone {σ : Type} (fexp flog : ℚ → ℚ)
    (sys : System σ) :
    (∀ (s s' : EnergyMC) (mT tl th mi : ℚ) (tLv nf : ℕ),
      StepRel fexp flog sys s s' → s.method = .Sad mT tl th mi tLv nf →
      ∃ tl' th' mi' tLv' nf', s'.method = .Sad mT tl' th' mi' tLv' nf'
        ∧ tl' ≤ tl ∧ th ≤ th')
    ∧ (∀ s, Reach fexp flog sys s → sad_window_le s)
    ∧ (∀ (mT E : ℚ) (delta : Option ℚ) (rng : Rng),
        (from_params (.Sad mT) E delta rng).method = .Sad mT E E E 0 1) := by
  refine ⟨?_, ?_, fun mT E delta rng => rfl⟩
  · rintro s s' mT tl th mi tLv nf (⟨e, hp⟩ | ⟨st, st', hmv⟩) hm
    · obtain ⟨-, k, m, -, -, -, pmeth, -, -, -, -, -, -, -, -, -, -, -⟩ :=
        prepare_for_energy_spec hp
      exact ⟨tl, th, mi, tLv, nf, pmeth.trans hm, le_refl _, le_refl _⟩
    · exact (move_once_step_facts fexp flog sys hmv).2.2.2.2.1
        mT tl th mi tLv nf hm
  · intro s h
    exact (reach_invariants fexp flog sys h).2.2.2

/-- Witness for C8: the constructed Sad state has a collapsed, well-formed
window. -/
theorem c8_sad_window_monotone_witness :
    sad_window_le (from_params (.Sad 1) 0 (some 1) rng0)
    ∧ (from_params (.Sad 1) 0 (some 1) rng0).method = .Sad 1 0 0 0 0 1 :=
  ⟨(c8_sad_window_monotone (fun q => q) (fun q => q) simSys).2.1 _
      (Reach.init (.Sad 1) 0 (some 1) rng0),
   (c8_sad_window_monotone (fun q => q) (fun q => q) simSys).2.2 1 0
      (some 1) rng0⟩

/-- C9: under Sad with a non-degenerate window, an out-of-window update
writes exactly the spec's boundary-anchored value to the bin of e1, with the
nearer edge's weight as anchor, the spec's gamma, and the branch selected on
lnw0 >= lnw.  The only hypothesis beyond the claim's own is fexp 0 = 1,
which holds for the f64 exp the code uses. -/
theorem c9_out_of_window_update (fexp flog : ℚ → ℚ) (hfexp0 : fexp 0 = 1)
    (s : EnergyMC) (mT tl th mi : ℚ) (tLv nf : ℕ) (e1 : ℚ)
    (hm : s.method = .Sad mT tl th mi tLv nf)
    (hwin : tl < th) (hout : e1 < tl ∨ e1 > th)
    (hidx : s.energy_to_index e1 < s.lnw.length) :
    (s.update_weights fexp flog e1).lnw.getD (s.energy_to_index e1) 0 =
      spec_out_of_window_value fexp flog
        (spec_sad_gamma mT tl th s.moves tLv nf)
        (s.lnw.getD (s.energy_to_index e1) 0)
        (spec_sad_lnw0 s tl th e1) := by
  simp only [EnergyMC.update_weights, hm, spec_out_of_window_value,
    spec_sad_lnw0, spec_sad_gamma]
  rw [if_pos hwin, if_pos hout]
  by_cases hgt : (if e1 > th then s.lnw.getD (s.energy_to_index th) 0
      else s.lnw.getD (s.energy_to_index tl) 0)
      > s.lnw.getD (s.energy_to_index e1) 0
  · rw [if_pos hgt, if_pos (le_of_lt hgt)]
    exact getD_set_self _ _ _ _ hidx
  · rw [if_neg hgt]
    rcases lt_or_eq_of_le (not_lt.mp hgt) with hlt | heq
    · rw [if_neg (not_le.mpr hlt)]
      exact getD_set_self _ _ _ _ hidx
    · rw [if_pos (le_of_eq heq.symm)]
      rw [getD_set_self _ _ _ _ hidx]
      rw [← heq, sub_self, hfexp0]
      congr 1
      congr 1
      ring

/-- Witness for C9 at a concrete Sad state with window (0, 1) and an energy
above the window. -/
theorem c9_out_of_window_update_witness :
    (sadState.update_weights (fun _ => 1) (fun q => q) 2).lnw.getD
        (sadState.energy_to_index 2) 0 =
      spec_out_of_window_value (fun _ => 1) (fun q => q)
        (spec_sad_gamma 1 0 1 sadState.moves 1 1)
        (sadState.lnw.getD (sadState.energy_to_index 2) 0)
        (spec_sad_lnw0 sadState 0 1 2) :=
  c9_out_of_window_update (fun _ => 1) (fun q => q) rfl sadState 1 0 1 0 1 1 2
    rfl (by norm_num) (Or.inr (by norm_num))
    (by simp [sadState, EnergyMC.energy_to_index, rat_floor_eq_floor])

/-- C6: for every energy and every table state with a positive bin width,
prepare_for_energy returns and afterwards the energy is inside the table's
range; when the energy lies k bins below the old min_energy_bin, exactly k
zero entries are prepended to both tables and min_energy_bin drops by
exactly k bin widths; and a second call with the same energy is the
identity. -/
theorem c6_prepare_for_energy (s : EnergyMC) (e : ℚ)
    (hbin : 0 < s.energy_bin) :
    ∃ s', s.prepare_for_energy e = some s'
      ∧ s'.min_energy_bin ≤ e
      ∧ e < s'.min_energy_bin + s'.energy_bin * (s'.lnw.length : ℚ)
      ∧ (∀ k : ℕ, 1 ≤ k →
          s.min_energy_bin - (k : ℚ) * s.energy_bin ≤ e →
          e < s.min_energy_bin - ((k : ℚ) - 1) * s.energy_bin →
          s'.histogram = List.replicate k 0 ++ s.histogram
          ∧ s'.lnw = List.replicate k 0 ++ s.lnw
          ∧ s'.min_energy_bin = s.min_energy_bin - (k : ℚ) * s.energy_bin)
      ∧ s'.prepare_for_energy e = some s' := by
  obtain ⟨s', hps⟩ : ∃ s', s.prepare_for_energy e = some s' := by
    unfold EnergyMC.prepare_for_energy
    rw [dif_pos hbin]
    exact ⟨_, rfl⟩
  obtain ⟨-, k0, m0, hhist, hlnw, hmeb, -, -, -, -, hbin2, -, -, -, hle, hlt,
    hj, hm⟩ := prepare_for_energy_spec hps
  refine ⟨s', hps, hle, hlt, ?_, ?_⟩
  · intro k hk1 hk2 hk3
    have hk0 : k0 = k := by
      by_contra hne
      rcases Nat.lt_or_ge k0 k with hlt0 | hge0
      · have hc : (k0 : ℚ) + 1 ≤ (k : ℚ) := by exact_mod_cast hlt0
        have hc2 : (k0 : ℚ) * s.energy_bin ≤ ((k : ℚ) - 1) * s.energy_bin :=
          mul_le_mul_of_nonneg_right (by linarith) (le_of_lt hbin)
        rw [hmeb] at hle
        linarith
      · have hlt1 : k < k0 := by omega
        have := hj k hlt1
        linarith
    have hm0 : m0 = 0 := by
      by_contra hm0
      have h1 := hm hm0
      have h2 : e < s.min_energy_bin := by
        have hk1q : (1 : ℚ) ≤ (k : ℚ) := by exact_mod_cast hk1
        nlinarith
      have h3 : (0 : ℚ) ≤ s.energy_bin * (s.lnw.length : ℚ) :=
        mul_nonneg (le_of_lt hbin) (by positivity)
      linarith
    subst hk0
    subst hm0
    refine ⟨?_, ?_, hmeb⟩
    · rw [hhist]
      simp
    · rw [hlnw]
      simp
  · have : 0 < s'.energy_bin := by rw [hbin2]; exact hbin
    exact prepare_no_change this hle hlt

/-- Witness for C6 at a concrete state and energy two bins below range. -/
theorem c6_prepare_for_energy_witness :
    0 < samcInit.energy_bin
    ∧ ∃ s', samcInit.prepare_for_energy (-2) = some s'
      ∧ s'.min_energy_bin ≤ -2
      ∧ (-2 : ℚ) < s'.min_energy_bin + s'.energy_bin * (s'.lnw.length : ℚ)
      ∧ (∀ k : ℕ, 1 ≤ k →
          samcInit.min_energy_bin - (k : ℚ) * samcInit.energy_bin ≤ -2 →
          (-2 : ℚ) < samcInit.min_energy_bin
            - ((k : ℚ) - 1) * samcInit.energy_bin →
          s'.histogram = List.replicate k 0 ++ samcInit.histogram
          ∧ s'.lnw = List.replicate k 0 ++ samcInit.lnw
          ∧ s'.min_energy_bin = samcInit.min_energy_bin
              - (k : ℚ) * samcInit.energy_bin)
      ∧ s'.prepare_for_energy (-2) = some s' :=
  ⟨by simp [samcInit, from_params],
   c6_prepare_for_energy samcInit (-2) (by simp [samcInit, from_params])⟩

/-- C3: every completed move_once call increments moves by exactly 1,
increments exactly one histogram entry (the bin of the System's current
post-step energy) by exactly 1 on the grown table, and runs the finishing
sub-steps (histogram, weight update at the pre-move energy e1, maxima) on
every trial including System-declined ones; and rejected_moves <= moves in
every reachable state. -/
theorem c3_move_once_protocol {σ : Type} (fexp flog : ℚ → ℚ)
    (sys : System σ) :
    (∀ (s : EnergyMC) (st : σ) (s' : EnergyMC) (st' : σ),
      s.move_once fexp flog sys st = some (s', st') →
      undo_ok sys →
      s.in_range (sys.energy st) →
      s.histogram.length = s.lnw.length →
      s'.moves = s.moves + 1
      ∧ s'.histogram.sum = s.histogram.sum + 1
      ∧ (∃ s_mid : EnergyMC,
          (∃ k m : ℕ, s_mid.histogram
              = List.replicate k 0 ++ s.histogram ++ List.replicate m 0)
          ∧ s_mid.moves = s.moves + 1
          ∧ s' = s_mid.finish_move fexp flog (sys.energy st') (sys.energy st)))
    ∧ (∀ s, Reach fexp flog sys s → s.rejected_moves ≤ s.moves) := by
  constructor
  · intro s st s' st' h hundo he hlen
    rcases move_once_cases fexp flog sys h with
      ⟨rng1, hmv, hst, hs⟩ | ⟨st2, rng1, sb, hmv, hprep, hcase⟩
    · subst hs
      obtain ⟨f1, -, -, -, -, -, f7, -, -, -⟩ :=
        finish_move_spec fexp flog
          { s with
            moves := s.moves + 1
            rng := rng1
            rejected_moves := s.rejected_moves + 1 }
          (sys.energy st) (sys.energy st)
      refine ⟨f1, ?_, ?_⟩
      · rw [f7]
        exact sum_set_getD_add_one _ _ he.2
      · rw [hst]
        exact ⟨_, ⟨0, 0, by simp⟩, rfl, rfl⟩
    · obtain ⟨hbin, k, m, phist, plnw, pmeb, pmeth, pmoves, ptime, prej, pbin,
        pmee, pmaxs, prng, ple, plt, pj, pm⟩ := prepare_for_energy_spec hprep
      obtain ⟨r1, r2, r3, r4, r5, r6, r7, r8, r9, r10, r11, r12, r13⟩ :=
        reject_move_spec fexp sb (sys.energy st) (sys.energy st2)
          Prod.mk.eta.symm
      set rj := (sb.reject_move fexp (sys.energy st) (sys.energy st2)).2
        with hrj
      have pmoves' : sb.moves = s.moves + 1 := pmoves
      have pbin' : sb.energy_bin = s.energy_bin := pbin
      have phist' : sb.histogram
          = List.replicate k 0 ++ s.histogram ++ List.replicate m 0 := phist
      have plnw' : sb.lnw
          = List.replicate k 0 ++ s.lnw ++ List.replicate m 0 := plnw
      have hsblen : sb.histogram.length = sb.lnw.length := by
        rw [phist', plnw']
        simp only [List.length_append, List.length_replicate]
        omega
      have hsbbin : 0 < sb.energy_bin := by
        rw [pbin']
        exact hbin
      have hsbin2 : sb.energy_to_index (sys.energy st2)
          < sb.histogram.length := by
        rw [hsblen]
        exact energy_to_index_lt hsbbin ple plt
      rcases hcase with ⟨hb, hst, hs⟩ | ⟨hb, hst, hs⟩
      · subst hs
        obtain ⟨f1, -, -, -, -, -, f7, -, -, -⟩ :=
          finish_move_spec fexp flog rj (sys.energy st2) (sys.energy st)
        refine ⟨?_, ?_, ?_⟩
        · rw [f1, r1, pmoves']
        · rw [f7]
          have hidx : rj.energy_to_index (sys.energy st2)
              = sb.energy_to_index (sys.energy st2) :=
            energy_to_index_congr r6 r7 _
          rw [sum_set_getD_add_one _ _ (by rw [hidx, r4]; exact hsbin2), r4,
            phist']
          simp [List.sum_append]
        · rw [hst]
          exact ⟨rj, ⟨k, m, r4.trans phist'⟩, by rw [r1, pmoves'], rfl⟩
      · subst hs
        have hre : sys.energy (sys.undo st2) = sys.energy st :=
          hundo st s.rng (1 / 10) st2 rng1 hmv
        obtain ⟨f1, -, -, -, -, -, f7, -, -, -⟩ :=
          finish_move_spec fexp flog
            { rj with rejected_moves := rj.rejected_moves + 1 }
            (sys.energy (sys.undo st2)) (sys.energy st)
        obtain ⟨hsbr, -⟩ := prepare_preserves_count hprep he
        have hsbr' : sb.in_range (sys.energy st) := hsbr
        have hidx : EnergyMC.energy_to_index
            { rj with rejected_moves := rj.rejected_moves + 1 }
              (sys.energy (sys.undo st2))
            = sb.energy_to_index (sys.energy st) := by
          rw [hre]
          exact energy_to_index_congr r6 r7 _
        refine ⟨?_, ?_, ?_⟩
        · rw [f1]
          show rj.moves = s.moves + 1
          rw [r1, pmoves']
        · rw [f7]
          rw [sum_set_getD_add_one _ _ (by
            show EnergyMC.energy_to_index
                { rj with rejected_moves := rj.rejected_moves + 1 }
                  (sys.energy (sys.undo st2)) < rj.histogram.length
            rw [hidx, r4]
            exact hsbr'.2)]
          show rj.histogram.sum + 1 = s.histogram.sum + 1
          rw [r4, phist']
          simp [List.sum_append]
        · refine ⟨{ rj with rejected_moves := rj.rejected_moves + 1 },
            ⟨k, m, ?_⟩, ?_, ?_⟩
          · show rj.histogram = _
            rw [r4, phist']
          · show rj.moves = s.moves + 1
            rw [r1, pmoves']
          · rw [hst]
  · intro s h
    exact (reach_invariants fexp flog sys h).2.2.1

/-- Witness for C3 with a System-declined trial at a concrete state. -/
theorem c3_move_once_protocol_witness :
    declState.moves = samcInit.moves + 1
    ∧ declState.histogram.sum = samcInit.histogram.sum + 1
    ∧ (∃ s_mid : EnergyMC,
        (∃ k m : ℕ, s_mid.histogram
            = List.replicate k 0 ++ samcInit.histogram ++ List.replicate m 0)
        ∧ s_mid.moves = samcInit.moves + 1
        ∧ declState = s_mid.finish_move (fun _ => 1) (fun _ => 1)
            (declSys.energy ()) (declSys.energy ())) :=
  (c3_move_once_protocol (fun _ => 1) (fun _ => 1) declSys).1 samcInit ()
    declState ()
    (by simp [EnergyMC.move_once, declSys, samcInit, from_params, Method.new,
      rng0, EnergyMC.finish_move, EnergyMC.update_weights,
      EnergyMC.energy_to_index, rat_floor_eq_floor, declState])
    (fun st r sc st2 r' hx => Option.noConfusion (congrArg Prod.fst hx))
    (by constructor
        · simp [samcInit, from_params, declSys]
        · simp [samcInit, from_params, declSys, EnergyMC.energy_to_index,
            rat_floor_eq_floor])
    rfl

/-! Samc scenario run: 1000 steps of a single-bin system. -/

theorem samc_inc_pos (t : ℕ) : 0 < samc_inc t := by
  unfold samc_inc
  split_ifs with h
  · exact div_pos (by norm_num)
      (by exact_mod_cast Nat.lt_of_lt_of_le (by norm_num) (le_of_lt h))
  · norm_num

theorem samcW_succ (n : ℕ) : samcW (n + 1) = samcW n + samc_inc (n + 1) := by
  unfold samcW
  rw [Finset.sum_Icc_succ_top (by omega : 1 ≤ n + 1)]

theorem samc_finish (fexp flog : ℚ → ℚ) (j : ℕ) :
    EnergyMC.finish_move fexp flog
      { samcState j with moves := (samcState j).moves + 1 } 0 0
      = samcState (j + 1) := by
  have hpos := samc_inc_pos (j + 1)
  have hw := (samcW_succ j).symm
  simp only [EnergyMC.finish_move, EnergyMC.update_weights, samcState,
    EnergyMC.energy_to_index, rat_floor_eq_floor, samc_inc] at hw ⊢
  norm_num
  simp only [samc_inc] at hpos
  push_cast at hpos hw
  rw [if_pos hpos, hw]

theorem samc_step (fexp flog : ℚ → ℚ) (j : ℕ) :
    EnergyMC.move_once fexp flog simSys (samcState j) ()
      = some (samcState (j + 1), ()) := by
  have hprep : EnergyMC.prepare_for_energy
      { samcState j with moves := (samcState j).moves + 1 } 0
      = some { samcState j with moves := (samcState j).moves + 1 } :=
    prepare_no_change (by norm_num [samcState]) (by norm_num [samcState])
      (by norm_num [samcState])
  have hrej : EnergyMC.reject_move fexp
      { samcState j with moves := (samcState j).moves + 1 } 0 0
      = (false, { samcState j with moves := (samcState j).moves + 1 }) := by
    simp [EnergyMC.reject_move, samcState]
  simp only [EnergyMC.move_once, simSys, hprep, hrej]
  simp only [Bool.false_eq_true, if_false]
  rw [samc_finish]

theorem samc_run (fexp flog : ℚ → ℚ) (n j : ℕ) :
    iter_moves fexp flog simSys n (samcState j) ()
      = some (samcState (j + n), ()) := by
  induction n generalizing j with
  | zero => simp [iter_moves]
  | succ n ih =>
    simp only [iter_moves, samc_step fexp flog j]
    rw [ih (j + 1)]
    have : j + 1 + n = j + (n + 1) := by omega
    rw [this]

theorem samcInit_eq_state : samcInit = samcState 0 := by
  have h0 : samcW 0 = 0 := by
    unfold samcW
    rw [Finset.Icc_eq_empty (by omega)]
    exact Finset.sum_empty
  unfold samcInit samcState from_params Method.new
  simp [h0]

theorem samcW_split :
    samcW 1000
      = 100 + 100 * ∑ t ∈ Finset.Icc (101 : ℕ) 1000, (1 : ℚ) / (t : ℚ) := by
  have h1 : Finset.Icc (1 : ℕ) 1000 = Finset.Ioc 0 1000 := by
    ext x
    simp only [Finset.mem_Icc, Finset.mem_Ioc]
    omega
  have h2 : Finset.Icc (101 : ℕ) 1000 = Finset.Ioc 100 1000 := by
    ext x
    simp only [Finset.mem_Icc, Finset.mem_Ioc]
    omega
  unfold samcW
  rw [h1, h2,
    ← Finset.sum_Ioc_consecutive _ (by omega : (0 : ℕ) ≤ 100)
      (by omega : (100 : ℕ) ≤ 1000)]
  congr 1
  · have hone : ∀ t ∈ Finset.Ioc (0 : ℕ) 100, samc_inc t = 1 := by
      intro t ht
      have hle : t ≤ 100 := (Finset.mem_Ioc.mp ht).2
      unfold samc_inc
      rw [if_neg (by omega)]
    rw [Finset.sum_congr rfl hone, Finset.sum_const]
    simp [Nat.card_Ioc]
  · rw [Finset.mul_sum]
    refine Finset.sum_congr rfl (fun t ht => ?_)
    have hgt : 100 < t := (Finset.mem_Ioc.mp ht).1
    unfold samc_inc
    rw [if_pos hgt, mul_one_div]

/-- C4: under Sad, an acceptance-test call that is not rejected and whose
target bin count is exactly zero increments n_found by exactly 1 and sets tL
to the current move count, and on no other occasion is the method state
touched; it never fires under Samc; per-bin counts never decrease over a
step, and an accepted move leaves its target bin's count at least 1, so the
zero-count trigger fires at most once per distinct bin (exactly on its
first accepted visit). -/
theorem c4_sad_first_visit (fexp flog : ℚ → ℚ) :
    (∀ (s : EnergyMC) (e1 e2 mT tl th mi : ℚ) (tLv nf : ℕ),
      s.method = .Sad mT tl th mi tLv nf →
      (((s.reject_move fexp e1 e2).1 = false
         ∧ s.histogram.getD (s.energy_to_index e2) 0 = 0) →
        (s.reject_move fexp e1 e2).2.method
          = .Sad mT tl th mi s.moves (nf + 1))
      ∧ (¬((s.reject_move fexp e1 e2).1 = false
            ∧ s.histogram.getD (s.energy_to_index e2) 0 = 0) →
        (s.reject_move fexp e1 e2).2.method = s.method))
    ∧ (∀ (s : EnergyMC) (e1 e2 : ℚ) (t0 : ℕ), s.method = .Samc t0 →
        (s.reject_move fexp e1 e2).2.method = s.method)
    ∧ (∀ {σ : Type} (sys : System σ) (s : EnergyMC) (st : σ)
        (s' : EnergyMC) (st' : σ),
        s.move_once fexp flog sys st = some (s', st') →
        ∀ e, s.in_range e → s.count_at e ≤ s'.count_at e ∧ s'.in_range e)
    ∧ (∀ {σ : Type} (sys : System σ) (s : EnergyMC) (st : σ)
        (s' : EnergyMC) (st' st2 : σ) (rng1 : Rng) (sb : EnergyMC),
        s.histogram.length = s.lnw.length →
        s.move_once fexp flog sys st = some (s', st') →
        sys.moveOnce st s.rng (1 / 10) = (some st2, rng1) →
        EnergyMC.prepare_for_energy { s with moves := s.moves + 1, rng := rng1 }
          (sys.energy st2) = some sb →
        (sb.reject_move fexp (sys.energy st) (sys.energy st2)).1 = false →
        1 ≤ s'.count_at (sys.energy st2)) := by
  refine ⟨?_, ?_, ?_, ?_⟩
  · intro s e1 e2 mT tl th mi tLv nf hm
    obtain ⟨-, -, -, -, -, -, -, -, -, -, -, hsad, -⟩ :=
      reject_move_spec fexp s e1 e2 Prod.mk.eta.symm
    exact hsad mT tl th mi tLv nf hm
  · intro s e1 e2 t0 hm
    obtain ⟨-, -, -, -, -, -, -, -, -, -, -, -, hsamc⟩ :=
      reject_move_spec fexp s e1 e2 Prod.mk.eta.symm
    exact hsamc t0 hm
  · intro σ sys s st s' st' h e he
    exact (move_once_step_facts fexp flog sys h).2.2.2.2.2.2 e he
  · intro σ sys s st s' st' st2 rng1 sb hlen h hmv hprep hb
    rcases move_once_cases fexp flog sys h with
      ⟨rng1', hmv', -, -⟩ | ⟨st2', rng1', sb', hmv', hprep', hcase⟩
    · rw [hmv'] at hmv
      exact absurd (congrArg Prod.fst hmv) (by simp)
    · rw [hmv'] at hmv
      obtain ⟨hst2, hrng⟩ := Prod.mk.injEq .. ▸ hmv
      rw [Option.some.inj hst2, hrng] at hprep'
      rw [Option.some.inj hst2] at hcase
      have hsb : sb' = sb := Option.some.inj (hprep'.symm.trans hprep)
      rw [hsb] at hcase
      obtain ⟨hbin, k, m, phist, plnw, pmeb, pmeth, pmoves, ptime, prej, pbin,
        pmee, pmaxs, prng, ple, plt, pj, pm⟩ := prepare_for_energy_spec hprep
      obtain ⟨r1, r2, r3, r4, r5, r6, r7, r8, r9, r10, r11, r12, r13⟩ :=
        reject_move_spec fexp sb (sys.energy st) (sys.energy st2)
          Prod.mk.eta.symm
      set rj := (sb.reject_move fexp (sys.energy st) (sys.energy st2)).2
        with hrj
      rcases hcase with ⟨-, hst, hs⟩ | ⟨hb', -, -⟩
      · subst hs
        have phist' : sb.histogram
            = List.replicate k 0 ++ s.histogram ++ List.replicate m 0 := phist
        have plnw' : sb.lnw
            = List.replicate k 0 ++ s.lnw ++ List.replicate m 0 := plnw
        have hsblen : sb.histogram.length = sb.lnw.length := by
          rw [phist', plnw']
          simp only [List.length_append, List.length_replicate]
          omega
        have hsbbin : 0 < sb.energy_bin := by
          rw [(pbin : sb.energy_bin = s.energy_bin)]
          exact hbin
        have hsbidx : sb.energy_to_index (sys.energy st2)
            < sb.histogram.length := by
          rw [hsblen]
          exact energy_to_index_lt hsbbin ple plt
        obtain ⟨-, -, -, fmb, feb, -, f7, -, -, -⟩ :=
          finish_move_spec fexp flog rj (sys.energy st2) (sys.energy st)
        unfold EnergyMC.count_at
        rw [energy_to_index_congr fmb feb, energy_to_index_congr r6 r7, f7,
          energy_to_index_congr r6 r7]
        rw [getD_set_self _ _ _ _ (by rw [r4]; exact hsbidx)]
        omega
      · rw [hb'] at hb
        exact absurd hb (by simp)

/-- Witness for C4 at concrete inputs: a Sad state for the per-call clauses,
a Samc state for the never-under-Samc clause, a declined step for count
monotonicity, and one accepted step showing the visited bin's count is
positive afterwards. -/
theorem c4_sad_first_visit_witness :
    ((((sadState.reject_move (fun _ => (1 : ℚ)) 0 2).1 = false
        ∧ sadState.histogram.getD (sadState.energy_to_index 2) 0 = 0) →
       (sadState.reject_move (fun _ => (1 : ℚ)) 0 2).2.method
         = .Sad 1 0 1 0 sadState.moves (1 + 1))
      ∧ (¬(((sadState.reject_move (fun _ => (1 : ℚ)) 0 2).1 = false
            ∧ sadState.histogram.getD (sadState.energy_to_index 2) 0 = 0)) →
         (sadState.reject_move (fun _ => (1 : ℚ)) 0 2).2.method
           = sadState.method))
    ∧ (samcInit.reject_move (fun _ => (1 : ℚ)) 0 0).2.method = samcInit.method
    ∧ (samcInit.count_at 0 ≤ declState.count_at 0 ∧ declState.in_range 0)
    ∧ 1 ≤ (samcState 1).count_at (simSys.energy ()) :=
  ⟨(c4_sad_first_visit (fun _ => 1) (fun _ => 1)).1 sadState 0 2 1 0 1 0 1 1
      rfl,
   (c4_sad_first_visit (fun _ => 1) (fun _ => 1)).2.1 samcInit 0 0 100 rfl,
   (c4_sad_first_visit (fun _ => 1) (fun _ => 1)).2.2.1 declSys samcInit ()
      declState ()
      (by simp [EnergyMC.move_once, declSys, samcInit, from_params, Method.new,
        rng0, EnergyMC.finish_move, EnergyMC.update_weights,
        EnergyMC.energy_to_index, rat_floor_eq_floor, declState])
      0
      (by constructor
          · simp [samcInit, from_params]
          · simp [samcInit, from_params, EnergyMC.energy_to_index,
              rat_floor_eq_floor]),
   (c4_sad_first_visit (fun _ => 1) (fun _ => 1)).2.2.2 simSys (samcState 0) ()
      (samcState 1) () () rng0
      { samcState 0 with moves := (samcState 0).moves + 1, rng := rng0 }
      rfl
      (samc_step (fun _ => 1) (fun _ => 1) 0)
      rfl
      (prepare_no_change (by norm_num [samcState, simSys])
        (by norm_num [samcState, simSys]) (by norm_num [samcState, simSys]))
      (by simp [EnergyMC.reject_move, samcState])⟩

/-- C5: under Samc, each weight update adds t0/t (for t > t0, else 1) to the
bin of e1 and changes no other entry; and the concrete 1000-step single-bin
run with t0 = 100 accumulates lnw[0] = 100 + 100 * sum over t in 101..1000
of 1/t. -/
theorem c5_samc_weight_update (fexp flog : ℚ → ℚ) :
    (∀ (s : EnergyMC) (e1 : ℚ) (t0 : ℕ), s.method = .Samc t0 →
      s.energy_to_index e1 < s.lnw.length →
      (s.update_weights fexp flog e1).lnw.getD (s.energy_to_index e1) 0
        = s.lnw.getD (s.energy_to_index e1) 0
          + (if s.moves > t0 then (t0 : ℚ) / (s.moves : ℚ) else 1))
    ∧ (∀ (s : EnergyMC) (e1 : ℚ) (t0 j : ℕ), s.method = .Samc t0 →
        j ≠ s.energy_to_index e1 →
        (s.update_weights fexp flog e1).lnw.getD j 0 = s.lnw.getD j 0)
    ∧ iter_moves fexp flog simSys 1000 samcInit () = some (samcState 1000, ())
    ∧ (samcState 1000).lnw.getD 0 0
        = 100 + 100 * ∑ t ∈ Finset.Icc (101 : ℕ) 1000, (1 : ℚ) / (t : ℚ) := by
  refine ⟨?_, ?_, ?_, ?_⟩
  · intro s e1 t0 hm hidx
    simp only [EnergyMC.update_weights, hm]
    exact getD_set_self _ _ _ _ hidx
  · intro s e1 t0 j hm hj
    exact (update_weights_spec fexp flog s e1).2.2.2.2.2.2.2.2.2.2.1 j hj
  · rw [samcInit_eq_state, samc_run fexp flog 1000 0]
  · have h : (samcState 1000).lnw.getD 0 0 = samcW 1000 := by
      simp [samcState]
    rw [h, samcW_split]

/-- Witness for C5's per-update clauses at a concrete Samc state. -/
theorem c5_samc_weight_update_witness :
    ((samcInit.update_weights (fun _ => 1) (fun _ => 1) 0).lnw.getD
        (samcInit.energy_to_index 0) 0
      = samcInit.lnw.getD (samcInit.energy_to_index 0) 0
        + (if samcInit.moves > 100 then (100 : ℚ) / (samcInit.moves : ℚ)
           else 1))
    ∧ ((samcInit.update_weights (fun _ => 1) (fun _ => 1) 0).lnw.getD 5 0
        = samcInit.lnw.getD 5 0) :=
  ⟨(c5_samc_weight_update (fun _ => 1) (fun _ => 1)).1 samcInit 0 100 rfl
     (by simp [samcInit, from_params, EnergyMC.energy_to_index,
       rat_floor_eq_floor]),
   (c5_samc_weight_update (fun _ => 1) (fun _ => 1)).2.1 samcInit 0 100 5 rfl
     (by simp [samcInit, from_params, EnergyMC.energy_to_index,
       rat_floor_eq_floor])⟩

end SadMc
